import Mathlib

/-!
Verification of the type-effectiveness aggregation engine of `pokesearch`
(`src/utility.rs`), shallowly embedded in Lean.

Modelling conventions:
* The `HashMap<i64, (Arc<str>, f64)>` field `inner` is modelled as an
  association list `List Entry` carrying the map's iteration order.  After
  construction the program mutates the map through `Entry::and_modify` only
  (no insertion, no removal), so the bucket layout and hence the iteration
  order are stable and an association list is a faithful model.
* `f64` multipliers are modelled as `ℚ`.  Every reachable multiplier is `0.0`
  or a power of two (the table starts at `1.0` and is only ever set to `0.0`,
  doubled or halved), and on those values `* 2.0`, `/ 2.0` and `= 0.0` are
  exact in `f64` throughout the normal range, so exact rational arithmetic is
  a faithful model.
* Rust's saturating `as u16` cast of a float truncates toward zero and clamps
  the result into `[0, 65535]`; `f64::round` rounds half away from zero.
* The `*_resource` and `*_name` mutator wrappers only resolve an API
  reference to the referenced type's numeric id before calling `modify_type`;
  relation lists are therefore modelled as lists of ids.
* Rust orders `str` values bytewise; for valid UTF-8 this coincides with the
  lexicographic order on unicode scalar values, embedded below as `nameLe`.
-/

/-- Model of `rustemon::model::resource::NamedApiResource` (only the `name` field is
consulted by the code under verification). -/
structure NamedApiResource where
  name : String
deriving DecidableEq

/-- Model of `rustemon::model::resource::Name`: one localized name. -/
structure Name where
  name : String
  language : NamedApiResource
deriving DecidableEq

/-- One entry of the `inner` map: key (the `i64` type id), display name, and
current damage multiplier. -/
structure Entry where
  id : ℤ
  name : String
  mult : ℚ
deriving DecidableEq

/-- Model of `TypeMatchup`: the table plus the cached report.  The `client` handle
carries no state that the embedded code consults. -/
structure TypeMatchup where
  inner : List Entry
  cache : List (ℚ × List String)
deriving DecidableEq

/-- Model of `TypeRelations` with each referenced type already resolved (followed) to
its numeric id. -/
structure TypeRelations where
  no_damage_from : List ℤ
  double_damage_from : List ℤ
  half_damage_from : List ℤ

/-- Model of `rustemon::model::pokemon::Type` (the fields the code reads). -/
structure PokeType where
  id : ℤ
  names : List Name

/-- Model of `linear_search`: the first element satisfying `p`, else the first element
of the list, else an error. -/
def linear_search (l : List α) (p : α → Bool) : Except String α :=
  match (l.find? p).orElse fun _ => l.head? with
  | some v => Except.ok v
  | none => Except.error "unable to find a suitable value"

/-- Model of `english_search`: `linear_search` for an entry whose language is `"en"`. -/
def english_search (l : List Name) : Except String Name :=
  linear_search l fun v => v.language.name == "en"

/-- The floor of a rational, written with `Int.fdiv` so that it reduces in
the kernel; `ratFloor_eq_floor` below identifies it with `⌊·⌋`. -/
def ratFloor (q : ℚ) : ℤ := q.num.fdiv q.den

/-- Saturating `as u16` cast of an integer (negative values clamp to `0`,
values above `65535` clamp to `65535`). -/
def toU16 (z : ℤ) : ℕ := if z.toNat ≤ 65535 then z.toNat else 65535

/-- Model of `x.round()` of `f64`, i.e. rounding half away from zero, as a map
`ℚ → ℤ`.  For nonnegative `x` this is `⌊x + 1/2⌋`; on negative `x` the two
maps differ only below `-1/2`, where both land at a negative value and the
subsequent `toU16` clamp sends both to `0`. -/
def rustRound (x : ℚ) : ℤ := ratFloor (x + 1 / 2)

/-- The grouping key of `get`: `(mult * 100.0).round() as u16`. -/
def toKey (m : ℚ) : ℕ := toU16 (rustRound (m * 100))

/-- The cache sort key of `get`: `(mult * 100.0) as u16` (truncation toward
zero; on the nonnegative values that occur this is the floor, and negative
values clamp to `0` either way). -/
def sortKey (m : ℚ) : ℕ := toU16 (ratFloor (m * 100))

/-- Bytewise comparison of strings as lists of unicode scalar values:
`strLeB l₁ l₂ = true` iff `l₁` is lexicographically at most `l₂`.  This is
the order `sort_unstable` uses on `Arc<str>` keys. -/
def strLeB : List Char → List Char → Bool
  | [], _ => true
  | _ :: _, [] => false
  | a :: as, b :: bs =>
    if a.val.toNat < b.val.toNat then true
    else if b.val.toNat < a.val.toNat then false
    else strLeB as bs

/-- The (non-strict) order on display names used by `sort_unstable`. -/
def nameLe (a b : String) : Prop := strLeB a.data b.data = true

/-- The strict version of `nameLe` (`a` comes strictly before `b`). -/
def nameLt (a b : String) : Prop := strLeB b.data a.data = false

instance : DecidableRel nameLe := fun _ _ => instDecidableEqBool _ _

instance : DecidableRel nameLt := fun _ _ => instDecidableEqBool _ _

instance : IsTotal String nameLe := by
  constructor
  suffices h : ∀ l₁ l₂, strLeB l₁ l₂ = true ∨ strLeB l₂ l₁ = true from
    fun a b => h a.data b.data
  intro l₁
  induction l₁ with
  | nil => exact fun _ => Or.inl rfl
  | cons a as ih =>
    intro l₂
    cases l₂ with
    | nil => exact Or.inr rfl
    | cons b bs =>
      by_cases hab : a.val.toNat < b.val.toNat
      · exact Or.inl (by simp [strLeB, hab])
      · by_cases hba : b.val.toNat < a.val.toNat
        · exact Or.inr (by simp [strLeB, hba])
        · rcases ih bs with h | h
          · exact Or.inl (by simp [strLeB, hab, hba, h])
          · exact Or.inr (by simp [strLeB, hab, hba, h])

instance : IsTrans String nameLe := by
  constructor
  suffices h : ∀ l₁ l₂ l₃, strLeB l₁ l₂ = true → strLeB l₂ l₃ = true →
      strLeB l₁ l₃ = true from
    fun a b c hab hbc => h a.data b.data c.data hab hbc
  intro l₁
  induction l₁ with
  | nil => exact fun _ _ _ _ => rfl
  | cons a as ih =>
    intro l₂ l₃ h₁₂ h₂₃
    cases l₂ with
    | nil => simp [strLeB] at h₁₂
    | cons b bs =>
      cases l₃ with
      | nil => simp [strLeB] at h₂₃
      | cons c cs =>
        simp only [strLeB] at h₁₂ h₂₃ ⊢
        by_cases hab : a.val.toNat < b.val.toNat
        · by_cases hbc : b.val.toNat < c.val.toNat
          · simp [show a.val.toNat < c.val.toNat by omega]
          · by_cases hcb : c.val.toNat < b.val.toNat
            · simp [hbc, hcb] at h₂₃
            · simp [show a.val.toNat < c.val.toNat by omega]
        · by_cases hba : b.val.toNat < a.val.toNat
          · simp [hab, hba] at h₁₂
          · by_cases hbc : b.val.toNat < c.val.toNat
            · simp [show a.val.toNat < c.val.toNat by omega]
            · by_cases hcb : c.val.toNat < b.val.toNat
              · simp [hbc, hcb] at h₂₃
              · have hac : ¬ a.val.toNat < c.val.toNat := by omega
                have hca : ¬ c.val.toNat < a.val.toNat := by omega
                simp only [hab, hba, if_neg, ite_false] at h₁₂
                simp only [hbc, hcb, if_neg, ite_false] at h₂₃
                simp only [hac, hca, if_neg, ite_false]
                exact ih bs cs h₁₂ h₂₃

/-- Model of `map.entry(k).or_default().push(n)` on the association list of groups. -/
def addToGroup : List (ℕ × List String) → ℕ → String → List (ℕ × List String)
  | [], k, n => [(k, [n])]
  | g :: gs, k, n => if g.1 = k then (g.1, g.2 ++ [n]) :: gs else g :: addToGroup gs k n

/-- The grouping fold of `get`: push every entry's display name into the
bucket of its rounded key. -/
def groupEntries (l : List Entry) : List (ℕ × List String) :=
  l.foldl (fun gs e => addToGroup gs (toKey e.mult) e.name) []

/-- Proof-side accessor: the bucket stored under key `k` (`[]` if absent). -/
def lookupG : List (ℕ × List String) → ℕ → List String
  | [], _ => []
  | g :: gs, k => if g.1 = k then g.2 else lookupG gs k

/-- Rust's `Vec::dedup`: remove *consecutive* duplicates only. -/
def rustDedup : List String → List String
  | [] => []
  | [x] => [x]
  | x :: y :: l => if x = y then rustDedup (y :: l) else x :: rustDedup (y :: l)

/-- The order used by `sort_unstable_by_key(|(m, _)| (*m * 100.0) as u16)`. -/
def groupLe (a b : ℚ × List String) : Prop := sortKey a.1 ≤ sortKey b.1

instance : DecidableRel groupLe := fun _ _ => Nat.decLe _ _

instance : IsTotal (ℚ × List String) groupLe := ⟨fun _ _ => Nat.le_total _ _⟩

instance : IsTrans (ℚ × List String) groupLe := ⟨fun _ _ _ => Nat.le_trans⟩

/-- The per-group finishing step of `get`: `dedup` *then* `sort_unstable`
(this is the order the source uses — `v.dedup(); v.sort_unstable();`), and
the key scaled back to a float by `m as f64 / 100.0`. -/
def finishGroup (g : ℕ × List String) : ℚ × List String :=
  ((g.1 : ℚ) / 100, List.insertionSort nameLe (rustDedup g.2))

/-- The report computation inside `get` when the cache is empty: group the
table entries by rounded key, finish each group, then sort the groups by
truncated key ascending and reverse.  `sort_unstable` is modelled by
insertion sort: the sort keys of distinct groups are distinct and equal
`String`s are indistinguishable by value, so the resulting list of values is
the same. -/
def computeReport (l : List Entry) : List (ℚ × List String) :=
  (List.insertionSort groupLe ((groupEntries l).map finishGroup)).reverse

/-- Model of `TypeMatchup::modify_type`: clear the cache (clearing an empty cache is
the identity, so the emptiness guard is dropped), then `and_modify` the entry
with the given id — entries with other ids are untouched and an absent id
inserts nothing. -/
def TypeMatchup.modify_type (s : TypeMatchup) (id : ℤ) (f : ℚ → ℚ) : TypeMatchup :=
  { inner := s.inner.map fun e => if e.id = id then { e with mult := f e.mult } else e
    cache := [] }

/-- Model of `TypeMatchup::no_damage_from`: force the multiplier to `0.0`. -/
def TypeMatchup.no_damage_from (s : TypeMatchup) (id : ℤ) : TypeMatchup :=
  s.modify_type id fun _ => 0

/-- Model of `TypeMatchup::half_damage_from`: halve the multiplier. -/
def TypeMatchup.half_damage_from (s : TypeMatchup) (id : ℤ) : TypeMatchup :=
  s.modify_type id fun v => v / 2

/-- Model of `TypeMatchup::double_damage_from`: double the multiplier. -/
def TypeMatchup.double_damage_from (s : TypeMatchup) (id : ℤ) : TypeMatchup :=
  s.modify_type id fun v => v * 2

/-- Model of `TypeMatchup::apply_relations`: the three relation lists in the source's
fixed order — all of `no_damage_from`, then all of `double_damage_from`, then
all of `half_damage_from`. -/
def TypeMatchup.apply_relations (s : TypeMatchup) (rel : TypeRelations) : TypeMatchup :=
  let s₁ := rel.no_damage_from.foldl TypeMatchup.no_damage_from s
  let s₂ := rel.double_damage_from.foldl TypeMatchup.double_damage_from s₁
  rel.half_damage_from.foldl TypeMatchup.half_damage_from s₂

/-- The net effect of one `apply_relations` call on the multiplier of the
table entry with id `t`: forced to `0` when `t` is listed in
`no_damage_from`, otherwise multiplied by `2` once per `double_damage_from`
occurrence and divided by `2` once per `half_damage_from` occurrence. -/
def applyRelMult (rel : TypeRelations) (t : ℤ) (m : ℚ) : ℚ :=
  (if t ∈ rel.no_damage_from then 0 else m)
    * 2 ^ rel.double_damage_from.count t / 2 ^ rel.half_damage_from.count t

/-- Model of `HashMap::insert` of `(name, 1.0)` at `id`: replace in place if the key
exists, otherwise add the entry. -/
def insertEntry : List Entry → ℤ → String → List Entry
  | [], id, n => [⟨id, n, 1⟩]
  | e :: l, id, n => if e.id = id then ⟨id, n, 1⟩ :: l else e :: insertEntry l id n

/-- The loop of `TypeMatchup::new`: for each catalog entry with id below the
base-type cutoff `19`, resolve its English display name (an error aborts the
whole construction, as `?` does) and insert it at multiplier `1.0`. -/
def TypeMatchup.newGo (s : TypeMatchup) : List PokeType → Except String TypeMatchup
  | [] => Except.ok s
  | t :: rest =>
    if t.id < 19 then
      match english_search t.names with
      | Except.error e => Except.error e
      | Except.ok n => TypeMatchup.newGo { s with inner := insertEntry s.inner t.id n.name } rest
    else TypeMatchup.newGo s rest

/-- Model of `TypeMatchup::new`, applied to the catalog returned by the provider. -/
def TypeMatchup.new (catalog : List PokeType) : Except String TypeMatchup :=
  TypeMatchup.newGo ⟨[], []⟩ catalog

/-- Model of `TypeMatchup::get`: recompute and store the report when the cache is
empty, otherwise serve the cache. -/
def TypeMatchup.get (s : TypeMatchup) : List (ℚ × List String) × TypeMatchup :=
  if s.cache.isEmpty then (computeReport s.inner, { s with cache := computeReport s.inner })
  else (s.cache, s)

/-- The branch condition of `get`: `true` exactly when a call to `get` in
state `s` re-derives the report from the table. -/
def TypeMatchup.getRecomputes (s : TypeMatchup) : Bool := s.cache.isEmpty

/-- The cache coherence invariant: the cache is either cleared or holds the
report of the current table.  It holds in every reachable state. -/
def CacheInv (s : TypeMatchup) : Prop := s.cache = [] ∨ s.cache = computeReport s.inner

/-- Lemma: `ratFloor` agrees with the mathematical floor. -/
theorem ratFloor_eq_floor (q : ℚ) : ratFloor q = ⌊q⌋ := by
  rw [Rat.floor_def]
  exact Int.fdiv_eq_ediv _ (Int.natCast_nonneg _)

/-- A fold of `no_damage_from` over a list of ids zeroes exactly the listed
entries. -/
theorem noFold_inner (L : List ℤ) (s : TypeMatchup) :
    (L.foldl TypeMatchup.no_damage_from s).inner
      = s.inner.map fun e => if e.id ∈ L then { e with mult := 0 } else e := by
  induction L generalizing s with
  | nil => simp
  | cons a L ih =>
    rw [List.foldl_cons, ih]
    have h0 : (TypeMatchup.no_damage_from s a).inner
        = s.inner.map fun e => if e.id = a then { e with mult := 0 } else e := rfl
    rw [h0, List.map_map]
    refine List.map_congr_left fun e _ => ?_
    obtain ⟨i, n, m⟩ := e
    by_cases hia : i = a <;> by_cases hiL : i ∈ L <;>
      simp [hia, hiL, Function.comp]

/-- A fold of `double_damage_from` over a list of ids doubles each entry once
per occurrence of its id. -/
theorem doubleFold_inner (L : List ℤ) (s : TypeMatchup) :
    (L.foldl TypeMatchup.double_damage_from s).inner
      = s.inner.map fun e => { e with mult := e.mult * 2 ^ L.count e.id } := by
  induction L generalizing s with
  | nil => simp
  | cons a L ih =>
    rw [List.foldl_cons, ih]
    have h0 : (TypeMatchup.double_damage_from s a).inner
        = s.inner.map fun e => if e.id = a then { e with mult := e.mult * 2 } else e := rfl
    rw [h0, List.map_map]
    refine List.map_congr_left fun e _ => ?_
    obtain ⟨i, n, m⟩ := e
    by_cases hia : i = a <;>
      simp [hia, Function.comp, List.count_cons, pow_succ] <;> ring

/-- A fold of `half_damage_from` over a list of ids halves each entry once
per occurrence of its id. -/
theorem halfFold_inner (L : List ℤ) (s : TypeMatchup) :
    (L.foldl TypeMatchup.half_damage_from s).inner
      = s.inner.map fun e => { e with mult := e.mult / 2 ^ L.count e.id } := by
  induction L generalizing s with
  | nil => simp
  | cons a L ih =>
    rw [List.foldl_cons, ih]
    have h0 : (TypeMatchup.half_damage_from s a).inner
        = s.inner.map fun e => if e.id = a then { e with mult := e.mult / 2 } else e := rfl
    rw [h0, List.map_map]
    refine List.map_congr_left fun e _ => ?_
    obtain ⟨i, n, m⟩ := e
    by_cases hia : i = a <;>
      simp [hia, Function.comp, List.count_cons, pow_succ, div_div] <;> ring

/-- One `apply_relations` call rewrites every entry's multiplier by
`applyRelMult` and touches nothing else. -/
theorem apply_relations_inner (s : TypeMatchup) (rel : TypeRelations) :
    (s.apply_relations rel).inner
      = s.inner.map fun e => { e with mult := applyRelMult rel e.id e.mult } := by
  have h0 : (s.apply_relations rel).inner
      = (rel.half_damage_from.foldl TypeMatchup.half_damage_from
          (rel.double_damage_from.foldl TypeMatchup.double_damage_from
            (rel.no_damage_from.foldl TypeMatchup.no_damage_from s))).inner := rfl
  rw [h0, halfFold_inner, doubleFold_inner, noFold_inner, List.map_map, List.map_map]
  refine List.map_congr_left fun e _ => ?_
  obtain ⟨i, n, m⟩ := e
  by_cases hino : i ∈ rel.no_damage_from <;>
    simp [applyRelMult, hino, Function.comp]

/-- Lemma: `modify_type` never changes the key set (in order). -/
theorem modify_type_ids (s : TypeMatchup) (id : ℤ) (f : ℚ → ℚ) :
    (s.modify_type id f).inner.map Entry.id = s.inner.map Entry.id := by
  have h0 : (s.modify_type id f).inner
      = s.inner.map fun e => if e.id = id then { e with mult := f e.mult } else e := rfl
  rw [h0, List.map_map]
  refine List.map_congr_left fun e _ => ?_
  by_cases hia : e.id = id <;> simp [hia, Function.comp]

/-- Lemma: `modify_type` with an id that is not a key of the table leaves the table
unchanged. -/
theorem modify_type_absent (s : TypeMatchup) (id : ℤ) (f : ℚ → ℚ)
    (h : id ∉ s.inner.map Entry.id) : (s.modify_type id f).inner = s.inner := by
  have h0 : (s.modify_type id f).inner
      = s.inner.map fun e => if e.id = id then { e with mult := f e.mult } else e := rfl
  rw [h0]
  have : ∀ e ∈ s.inner, (if e.id = id then { e with mult := f e.mult } else e) = e := by
    intro e he
    have : e.id ≠ id := fun hc => h (hc ▸ List.mem_map_of_mem Entry.id he)
    simp [this]
  rw [List.map_congr_left this]
  simp

/-- C8 helper: doubling then halving the same id in two separate calls is the
identity on the table. -/
theorem double_then_half_inner (s : TypeMatchup) (t : ℤ) :
    ((s.double_damage_from t).half_damage_from t).inner = s.inner := by
  have h0 : ((s.double_damage_from t).half_damage_from t).inner
      = (s.inner.map fun e => if e.id = t then { e with mult := e.mult * 2 } else e).map
          fun e => if e.id = t then { e with mult := e.mult / 2 } else e := rfl
  rw [h0, List.map_map]
  have : ∀ e ∈ s.inner,
      ((fun e => if e.id = t then { e with mult := e.mult / 2 } else e) ∘
        fun e => if e.id = t then { e with mult := e.mult * 2 } else e) e = e := by
    intro e _
    obtain ⟨i, n, m⟩ := e
    by_cases hit : i = t <;> simp [hit, Function.comp, mul_div_cancel_right₀]
  rw [List.map_congr_left this]
  simp

/-- C1.  `apply_relations` processes `no_damage_from`, `double_damage_from`
and `half_damage_from` in that fixed order, with the net per-entry effect
`applyRelMult`: an id listed in `no_damage_from` is overwritten to exactly
`0` (not multiplied), each `double_damage_from` occurrence multiplies by `2`
and each `half_damage_from` occurrence divides by `2`; consequently an entry
whose multiplier is already `0` (e.g. zeroed by an earlier call) still has
multiplier `0` after any later `apply_relations` call, including one that
doubles it. -/
theorem c1_apply_relations_effect (s : TypeMatchup) (rel : TypeRelations) :
    ((s.apply_relations rel).inner
        = s.inner.map fun e => { e with mult := applyRelMult rel e.id e.mult })
      ∧ ∀ (i : ℕ) (e e' : Entry), s.inner[i]? = some e →
          (s.apply_relations rel).inner[i]? = some e' → e.mult = 0 → e'.mult = 0 := by
  refine ⟨apply_relations_inner s rel, fun i e e' he he' h0 => ?_⟩
  rw [apply_relations_inner s rel, List.getElem?_map, he] at he'
  obtain rfl : { e with mult := applyRelMult rel e.id e.mult } = e' := by
    simpa using he'
  show applyRelMult rel e.id e.mult = 0
  rw [h0]
  unfold applyRelMult
  by_cases hino : e.id ∈ rel.no_damage_from <;> simp [hino]

set_option maxRecDepth 4096 in
/-- C1 witness: a concrete table in which type `7` was zeroed by an earlier
call and is doubled by a later call, ending at `0`. -/
theorem c1_witness :
    (TypeMatchup.apply_relations ⟨[⟨7, "Steel", 0⟩], []⟩
          ⟨[], [7], []⟩).inner
        = ([⟨7, "Steel", 0⟩] : List Entry).map (fun e =>
            { e with mult := applyRelMult ⟨[], [7], []⟩ e.id e.mult })
      ∧ ∃ e', (TypeMatchup.apply_relations ⟨[⟨7, "Steel", 0⟩], []⟩
          ⟨[], [7], []⟩).inner[0]? = some e' ∧ e'.mult = 0 := by
  refine ⟨(c1_apply_relations_effect ⟨[⟨7, "Steel", 0⟩], []⟩ ⟨[], [7], []⟩).1, ?_⟩
  refine ⟨⟨7, "Steel", 0 * 2 ^ 1 / 2 ^ 0⟩, by with_unfolding_all decide, ?_⟩
  exact (c1_apply_relations_effect ⟨[⟨7, "Steel", 0⟩], []⟩ ⟨[], [7], []⟩).2 0
    ⟨7, "Steel", 0⟩ ⟨7, "Steel", 0 * 2 ^ 1 / 2 ^ 0⟩ rfl
    (by with_unfolding_all decide) rfl

/-- C6.  The key set of the table is invariant under `modify_type` and
`apply_relations` (no key is ever added or removed), and a `modify_type`
for an id that is not a key of the table is silently ignored: the table is
returned unchanged (and no error is possible — the operation is total). -/
theorem c6_key_invariance (s : TypeMatchup) (rel : TypeRelations) (id : ℤ) (f : ℚ → ℚ) :
    ((s.modify_type id f).inner.map Entry.id = s.inner.map Entry.id)
      ∧ ((s.apply_relations rel).inner.map Entry.id = s.inner.map Entry.id)
      ∧ (id ∉ s.inner.map Entry.id → (s.modify_type id f).inner = s.inner) := by
  refine ⟨modify_type_ids s id f, ?_, modify_type_absent s id f⟩
  rw [apply_relations_inner, List.map_map]
  exact List.map_congr_left fun e _ => rfl

/-- C6 witness: a table with keys `{1, 2}`, a relation bundle mentioning the
unknown id `9`, and a direct `modify_type` on the unknown id `9`. -/
theorem c6_witness :
    (((TypeMatchup.modify_type ⟨[⟨1, "A", 1⟩, ⟨2, "B", 1⟩], []⟩ 9
            fun v => v * 2).inner.map Entry.id
        = [⟨1, "A", 1⟩, ⟨2, "B", 1⟩].map Entry.id)
      ∧ ((TypeMatchup.apply_relations ⟨[⟨1, "A", 1⟩, ⟨2, "B", 1⟩], []⟩
            ⟨[9], [9], [9]⟩).inner.map Entry.id
        = [⟨1, "A", 1⟩, ⟨2, "B", 1⟩].map Entry.id))
      ∧ ((9 : ℤ) ∉ ([⟨1, "A", 1⟩, ⟨2, "B", 1⟩] : List Entry).map Entry.id)
      ∧ (TypeMatchup.modify_type ⟨[⟨1, "A", 1⟩, ⟨2, "B", 1⟩], []⟩ 9
          (fun v => v * 2)).inner = [⟨1, "A", 1⟩, ⟨2, "B", 1⟩] := by
  have h := c6_key_invariance ⟨[⟨1, "A", 1⟩, ⟨2, "B", 1⟩], []⟩ ⟨[9], [9], [9]⟩ 9
    fun v => v * 2
  have habs : (9 : ℤ) ∉ ([⟨1, "A", 1⟩, ⟨2, "B", 1⟩] : List Entry).map Entry.id := by
    with_unfolding_all decide
  exact ⟨⟨h.1, h.2.1⟩, habs, h.2.2 habs⟩

/-- C8.  Applying `double_damage_from` and then `half_damage_from` for the
same type in two separate calls returns every multiplier (in particular that
type's) exactly to its prior value — in the rational model the round trip is
the identity on the table. -/
theorem c8_double_half_roundtrip (s : TypeMatchup) (t : ℤ) :
    ((s.double_damage_from t).half_damage_from t).inner = s.inner :=
  double_then_half_inner s t

/-- Lemma: `get` on a state with a cleared cache recomputes the report from the
table. -/
theorem get_fst_of_cache_empty (s : TypeMatchup) (h : s.cache = []) :
    s.get.1 = computeReport s.inner := by
  simp [TypeMatchup.get, h]

/-- C10.  A `modify_type` whose id is not a key of the table leaves the table
mapping completely unchanged, yet still clears the report cache, so the next
`get` takes the recompute branch even though no mutation occurred (and
re-derives the same report from the unchanged table). -/
theorem c10_absent_id_clears_cache (s : TypeMatchup) (id : ℤ) (f : ℚ → ℚ)
    (h : id ∉ s.inner.map Entry.id) :
    (s.modify_type id f).inner = s.inner
      ∧ (s.modify_type id f).cache = []
      ∧ (s.modify_type id f).getRecomputes = true
      ∧ (s.modify_type id f).get.1 = computeReport s.inner := by
  refine ⟨modify_type_absent s id f h, rfl, rfl, ?_⟩
  rw [get_fst_of_cache_empty _ rfl, modify_type_absent s id f h]

/-- C10 witness: the cache of a freshly reported one-entry table is cleared
by a `modify_type` on the absent id `3`, although the table is unchanged. -/
theorem c10_witness :
    ((3 : ℤ) ∉ ([⟨1, "A", 1⟩] : List Entry).map Entry.id)
      ∧ ((TypeMatchup.modify_type ⟨[⟨1, "A", 1⟩], [(1, ["A"])]⟩ 3
            fun v => 0).inner = [⟨1, "A", 1⟩]
        ∧ (TypeMatchup.modify_type ⟨[⟨1, "A", 1⟩], [(1, ["A"])]⟩ 3
            fun v => 0).cache = []
        ∧ (TypeMatchup.modify_type ⟨[⟨1, "A", 1⟩], [(1, ["A"])]⟩ 3
            fun v => 0).getRecomputes = true
        ∧ (TypeMatchup.modify_type ⟨[⟨1, "A", 1⟩], [(1, ["A"])]⟩ 3
            fun v => 0).get.1 = computeReport [⟨1, "A", 1⟩]) := by
  have habs : (3 : ℤ) ∉ ([⟨1, "A", 1⟩] : List Entry).map Entry.id := by
    with_unfolding_all decide
  exact ⟨habs, c10_absent_id_clears_cache ⟨[⟨1, "A", 1⟩], [(1, ["A"])]⟩ 3 (fun v => 0) habs⟩

/-- Lemma: `addToGroup` never returns the empty list. -/
theorem addToGroup_ne_nil (gs : List (ℕ × List String)) (k : ℕ) (n : String) :
    addToGroup gs k n ≠ [] := by
  cases gs with
  | nil => simp [addToGroup]
  | cons g gs => by_cases hk : g.1 = k <;> simp [addToGroup, hk]

/-- The grouping fold preserves nonemptiness of the accumulator. -/
theorem foldl_addToGroup_ne_nil (l : List Entry) :
    ∀ gs : List (ℕ × List String), gs ≠ [] →
      l.foldl (fun gs e => addToGroup gs (toKey e.mult) e.name) gs ≠ [] := by
  induction l with
  | nil => exact fun _ h => h
  | cons e l ih => exact fun gs _ => ih _ (addToGroup_ne_nil gs _ _)

/-- A nonempty table yields a nonempty report. -/
theorem computeReport_ne_nil (l : List Entry) (h : l ≠ []) : computeReport l ≠ [] := by
  have hg : groupEntries l ≠ [] := by
    obtain ⟨e, l', rfl⟩ := List.exists_cons_of_ne_nil h
    exact foldl_addToGroup_ne_nil l' _ (addToGroup_ne_nil [] _ _)
  intro hc
  apply hg
  unfold computeReport at hc
  rw [List.reverse_eq_nil_iff] at hc
  have hlen := congrArg List.length hc
  rw [List.length_insertionSort, List.length_map] at hlen
  exact List.length_eq_zero.mp hlen

/-- Lemma: `get` on a state whose cache is cleared. -/
theorem get_of_cache_empty (s : TypeMatchup) (h : s.cache = []) :
    s.get = (computeReport s.inner, { s with cache := computeReport s.inner }) := by
  simp [TypeMatchup.get, h]

/-- Lemma: `get` on a state whose cache is populated serves the cache unchanged. -/
theorem get_of_cache_ne (s : TypeMatchup) (h : s.cache ≠ []) : s.get = (s.cache, s) := by
  have hb : s.cache.isEmpty = false := by
    cases hcc : s.cache with
    | nil => exact absurd hcc h
    | cons a t => rfl
  simp [TypeMatchup.get, hb]

/-- Under the cache invariant, `get` always returns the report of the
current table — the cached view is never stale. -/
theorem get_fst_report (s : TypeMatchup) (h : CacheInv s) :
    s.get.1 = computeReport s.inner := by
  by_cases hc : s.cache = []
  · rw [get_of_cache_empty s hc]
  · rcases h with h | h
    · exact absurd h hc
    · rw [get_of_cache_ne s hc, h]

/-- Lemma: `get` does not change the table. -/
theorem get_snd_inner (s : TypeMatchup) : s.get.2.inner = s.inner := by
  by_cases hc : s.cache = []
  · rw [get_of_cache_empty s hc]
  · rw [get_of_cache_ne s hc]

/-- After a `get`, the cache holds the report of the current table. -/
theorem get_snd_cache (s : TypeMatchup) (h : CacheInv s) :
    s.get.2.cache = computeReport s.inner := by
  by_cases hc : s.cache = []
  · rw [get_of_cache_empty s hc]
  · rcases h with h | h
    · exact absurd h hc
    · rw [get_of_cache_ne s hc, h]

/-- Writing an empty cache into a state whose cache is already empty is the
identity. -/
theorem cache_nil_eta (s : TypeMatchup) (h : s.cache = []) :
    ({ s with cache := ([] : List (ℚ × List String)) } : TypeMatchup) = s := by
  cases s
  simp_all

/-- A second `get` with no intervening mutation returns the same report and
the same state (this holds for every state, cached or not). -/
theorem get_idempotent (s : TypeMatchup) : s.get.2.get = (s.get.1, s.get.2) := by
  by_cases hc : s.cache = []
  · rw [get_of_cache_empty s hc]
    by_cases hr : computeReport s.inner = []
    · rw [get_of_cache_empty { s with cache := computeReport s.inner } hr]
    · rw [get_of_cache_ne { s with cache := computeReport s.inner } hr]
  · rw [get_of_cache_ne s hc, get_of_cache_ne s hc]

/-- C2 (amended).  Under the cache invariant: `get` always returns the report
of the current table (never stale); a second `get` with no intervening
mutation returns the identical report and state; when the table is nonempty
the second call is served from the cache without re-deriving; and any
mutation after a report was produced clears the cache, so the next `get`
takes the recompute branch and re-derives from the mutated table.  (For an
*empty* table the empty report is indistinguishable from a cleared cache, so
`get` re-derives the — empty — report on every call; see the
counterexample.) -/
theorem c2_cache_behavior (s : TypeMatchup) (h : CacheInv s) :
    (s.get.1 = computeReport s.inner)
      ∧ s.get.2.get = (s.get.1, s.get.2)
      ∧ (s.inner ≠ [] → s.get.2.getRecomputes = false)
      ∧ ∀ (id : ℤ) (f : ℚ → ℚ),
          (s.get.2.modify_type id f).getRecomputes = true
            ∧ (s.get.2.modify_type id f).get.1
                = computeReport (s.get.2.modify_type id f).inner := by
  refine ⟨get_fst_report s h, get_idempotent s, fun hne => ?_, fun id f => ?_⟩
  · show s.get.2.cache.isEmpty = false
    rw [get_snd_cache s h]
    cases hcr : computeReport s.inner with
    | nil => exact absurd hcr (computeReport_ne_nil _ hne)
    | cons a t => rfl
  · exact ⟨rfl, get_fst_of_cache_empty _ rfl⟩

/-- C2 counterexample: on the empty table (reachable via `new` on an empty
catalog) the report is `[]`, which is stored as an "empty" cache, so a second
`get` with no intervening mutation still takes the recompute branch — the
claim's "without re-deriving" fails there, although the returned values are
identical. -/
theorem c2_counterexample :
    (TypeMatchup.new [] = Except.ok ⟨[], []⟩)
      ∧ (TypeMatchup.get (TypeMatchup.get ⟨[], []⟩).2).1 = (TypeMatchup.get ⟨[], []⟩).1
      ∧ TypeMatchup.getRecomputes (TypeMatchup.get ⟨[], []⟩).2 = true :=
  ⟨rfl, by with_unfolding_all decide⟩

/-- C2 witness: a one-entry table with a cleared cache satisfies the cache
invariant and is nonempty; the amended claim's conclusions hold there. -/
theorem c2_witness :
    CacheInv ⟨[⟨1, "A", 1⟩], []⟩
      ∧ ([⟨1, "A", 1⟩] : List Entry) ≠ []
      ∧ ((TypeMatchup.mk [⟨1, "A", 1⟩] []).get.1 = computeReport [⟨1, "A", 1⟩]
        ∧ (TypeMatchup.mk [⟨1, "A", 1⟩] []).get.2.get
            = ((TypeMatchup.mk [⟨1, "A", 1⟩] []).get.1,
               (TypeMatchup.mk [⟨1, "A", 1⟩] []).get.2)
        ∧ (TypeMatchup.mk [⟨1, "A", 1⟩] []).get.2.getRecomputes = false
        ∧ ((TypeMatchup.mk [⟨1, "A", 1⟩] []).get.2.modify_type 1
              fun v => v * 2).getRecomputes = true) := by
  have h := c2_cache_behavior ⟨[⟨1, "A", 1⟩], []⟩ (Or.inl rfl)
  exact ⟨Or.inl rfl, by with_unfolding_all decide,
    h.1, h.2.1, h.2.2.1 (by with_unfolding_all decide), (h.2.2.2 1 fun v => v * 2).1⟩

/-- C9.  `english_search` is total on nonempty lists — it returns the first
entry whose language is `"en"` when one exists, and the first entry of the
list otherwise — and fails fast with an error on the empty list. -/
theorem c9_english_search_total (l : List Name) :
    (l = [] → english_search l = Except.error "unable to find a suitable value")
      ∧ (l ≠ [] → ∃ x, english_search l = Except.ok x
          ∧ ((∃ l₁ l₂, l = l₁ ++ x :: l₂ ∧ x.language.name = "en"
                ∧ ∀ y ∈ l₁, y.language.name ≠ "en")
            ∨ ((∀ y ∈ l, y.language.name ≠ "en") ∧ l.head? = some x))) := by
  constructor
  · rintro rfl
    rfl
  · intro hne
    cases hf : l.find? fun v => v.language.name == "en" with
    | some x =>
      refine ⟨x, ?_, Or.inl ?_⟩
      · unfold english_search linear_search
        rw [hf]
        rfl
      · obtain ⟨hpx, l₁, l₂, rfl, hfirst⟩ := List.find?_eq_some.mp hf
        refine ⟨l₁, l₂, rfl, by simpa using hpx, fun y hy => ?_⟩
        simpa using hfirst y hy
    | none =>
      obtain ⟨a, l', rfl⟩ := List.exists_cons_of_ne_nil hne
      refine ⟨a, ?_, Or.inr ⟨?_, rfl⟩⟩
      · unfold english_search linear_search
        rw [hf]
        rfl
      · intro y hy
        simpa using List.find?_eq_none.mp hf y hy

/-- C9 witness: a two-entry list whose English entry is second, and the
theorem's conclusion evaluated there. -/
theorem c9_witness :
    ([⟨"Feuer", ⟨"de"⟩⟩, ⟨"Fire", ⟨"en"⟩⟩] : List Name) ≠ []
      ∧ ∃ x, english_search [⟨"Feuer", ⟨"de"⟩⟩, ⟨"Fire", ⟨"en"⟩⟩] = Except.ok x
          ∧ ((∃ l₁ l₂, ([⟨"Feuer", ⟨"de"⟩⟩, ⟨"Fire", ⟨"en"⟩⟩] : List Name)
                  = l₁ ++ x :: l₂ ∧ x.language.name = "en"
                ∧ ∀ y ∈ l₁, y.language.name ≠ "en")
            ∨ ((∀ y ∈ ([⟨"Feuer", ⟨"de"⟩⟩, ⟨"Fire", ⟨"en"⟩⟩] : List Name),
                  y.language.name ≠ "en")
                ∧ ([⟨"Feuer", ⟨"de"⟩⟩, ⟨"Fire", ⟨"en"⟩⟩] : List Name).head? = some x)) :=
  ⟨by with_unfolding_all decide,
    (c9_english_search_total [⟨"Feuer", ⟨"de"⟩⟩, ⟨"Fire", ⟨"en"⟩⟩]).2
      (by with_unfolding_all decide)⟩

/-- Lemma: `toU16` never exceeds the `u16` maximum. -/
theorem toU16_le (z : ℤ) : toU16 z ≤ 65535 := by
  unfold toU16
  split <;> omega

/-- Lemma: `toU16` on a small natural number is the identity. -/
theorem toU16_natCast (k : ℕ) (h : k ≤ 65535) : toU16 (k : ℤ) = k := by
  unfold toU16
  rw [Int.toNat_natCast, if_pos h]

/-- Lemma: `toU16` is the identity on `[0, 65535]`. -/
theorem toU16_of_nonneg_le (z : ℤ) (h0 : 0 ≤ z) (h : z ≤ 65535) : (toU16 z : ℤ) = z := by
  unfold toU16
  rw [if_pos (by omega : z.toNat ≤ 65535), Int.toNat_of_nonneg h0]

/-- Lemma: `toU16` is injective on `[0, 65535]`. -/
theorem toU16_inj (z₁ z₂ : ℤ) (h₁ : 0 ≤ z₁) (h₁' : z₁ ≤ 65535) (h₂ : 0 ≤ z₂)
    (h₂' : z₂ ≤ 65535) (h : toU16 z₁ = toU16 z₂) : z₁ = z₂ := by
  rw [← toU16_of_nonneg_le z₁ h₁ h₁', ← toU16_of_nonneg_le z₂ h₂ h₂', h]

/-- The grouping key is always a valid `u16`. -/
theorem toKey_le (m : ℚ) : toKey m ≤ 65535 := toU16_le _

/-- The cache sort key of a reconstructed group multiplier `k / 100` is `k`
itself (for `k` in `u16` range), so the final sort orders groups by their
grouping key. -/
theorem sortKey_div_natCast (k : ℕ) (h : k ≤ 65535) : sortKey ((k : ℚ) / 100) = k := by
  unfold sortKey
  rw [div_mul_cancel₀ _ (by norm_num : (100 : ℚ) ≠ 0), ratFloor_eq_floor,
    Int.floor_natCast]
  exact toU16_natCast k h

/-- The keys after `addToGroup`: unchanged if the key is present, otherwise
the new key is appended. -/
theorem addToGroup_keys (gs : List (ℕ × List String)) (k : ℕ) (n : String) :
    (addToGroup gs k n).map Prod.fst
      = if k ∈ gs.map Prod.fst then gs.map Prod.fst else gs.map Prod.fst ++ [k] := by
  induction gs with
  | nil => simp [addToGroup]
  | cons g gs ih =>
    by_cases hk : g.1 = k
    · simp [addToGroup, hk]
    · simp only [addToGroup, if_neg hk, List.map_cons, ih, List.mem_cons]
      by_cases hmem : k ∈ gs.map Prod.fst <;>
        simp [hmem, Ne.symm hk]

/-- The grouping fold keeps the bucket keys pairwise distinct. -/
theorem foldl_addToGroup_nodup (l : List Entry) :
    ∀ gs : List (ℕ × List String), (gs.map Prod.fst).Nodup →
      ((l.foldl (fun gs e => addToGroup gs (toKey e.mult) e.name) gs).map Prod.fst).Nodup := by
  induction l with
  | nil => exact fun _ h => h
  | cons e l ih =>
    intro gs h
    refine ih _ ?_
    by_cases hmem : toKey e.mult ∈ gs.map Prod.fst
    · rwa [addToGroup_keys, if_pos hmem]
    · rw [addToGroup_keys, if_neg hmem]
      simp [List.nodup_append, h, hmem]

/-- The grouping fold only ever creates keys in `u16` range. -/
theorem foldl_addToGroup_le (l : List Entry) :
    ∀ gs : List (ℕ × List String), (∀ k ∈ gs.map Prod.fst, k ≤ 65535) →
      ∀ k ∈ (l.foldl (fun gs e => addToGroup gs (toKey e.mult) e.name) gs).map Prod.fst,
        k ≤ 65535 := by
  induction l with
  | nil => exact fun _ h => h
  | cons e l ih =>
    intro gs h
    refine ih _ ?_
    intro k hk
    by_cases hmem : toKey e.mult ∈ gs.map Prod.fst
    · rw [addToGroup_keys, if_pos hmem] at hk
      exact h k hk
    · rw [addToGroup_keys, if_neg hmem] at hk
      rcases List.mem_append.mp hk with hk | hk
      · exact h k hk
      · rw [List.mem_singleton.mp hk]
        exact toKey_le _

/-- The bucket keys of `groupEntries` are pairwise distinct. -/
theorem groupEntries_keys_nodup (l : List Entry) :
    ((groupEntries l).map Prod.fst).Nodup :=
  foldl_addToGroup_nodup l [] (by simp)

/-- All bucket keys of `groupEntries` are in `u16` range. -/
theorem groupEntries_keys_le (l : List Entry) :
    ∀ k ∈ (groupEntries l).map Prod.fst, k ≤ 65535 :=
  foldl_addToGroup_le l [] (by simp)

/-- Lemma: `addToGroup` appends the pushed name to its own bucket. -/
theorem lookupG_addToGroup_self (gs : List (ℕ × List String)) (k : ℕ) (n : String) :
    lookupG (addToGroup gs k n) k = lookupG gs k ++ [n] := by
  induction gs with
  | nil => simp [addToGroup, lookupG]
  | cons g gs ih =>
    by_cases hk : g.1 = k
    · simp [addToGroup, lookupG, hk]
    · simp [addToGroup, lookupG, hk, ih]

/-- Lemma: `addToGroup` leaves every other bucket unchanged. -/
theorem lookupG_addToGroup_other (gs : List (ℕ × List String)) (k k' : ℕ) (n : String)
    (h : k' ≠ k) : lookupG (addToGroup gs k n) k' = lookupG gs k' := by
  have hkk : k ≠ k' := fun hc => h hc.symm
  induction gs with
  | nil => simp [addToGroup, lookupG, hkk]
  | cons g gs ih =>
    by_cases hk : g.1 = k
    · simp [addToGroup, lookupG, hk, hkk]
    · by_cases hk' : g.1 = k' <;> simp [addToGroup, lookupG, hk, hk', hkk, h, ih]

/-- Names already in a bucket survive the rest of the grouping fold. -/
theorem mem_lookupG_foldl (l : List Entry) :
    ∀ (gs : List (ℕ × List String)) (n : String) (k : ℕ), n ∈ lookupG gs k →
      n ∈ lookupG (l.foldl (fun gs e => addToGroup gs (toKey e.mult) e.name) gs) k := by
  induction l with
  | nil => exact fun _ _ _ h => h
  | cons e l ih =>
    intro gs n k h
    refine ih _ n k ?_
    by_cases hk : k = toKey e.mult
    · subst hk
      rw [lookupG_addToGroup_self]
      exact List.mem_append_left _ h
    · rwa [lookupG_addToGroup_other _ _ _ _ hk]

/-- Every table entry's display name lands in the bucket of its key. -/
theorem name_mem_groupEntries (l : List Entry) :
    ∀ e ∈ l, e.name ∈ lookupG (groupEntries l) (toKey e.mult) := by
  suffices h : ∀ (l : List Entry) (gs : List (ℕ × List String)), ∀ e ∈ l,
      e.name ∈ lookupG (l.foldl (fun gs e => addToGroup gs (toKey e.mult) e.name) gs)
        (toKey e.mult) from
    fun e he => h l [] e he
  intro l
  induction l with
  | nil => simp
  | cons a l ih =>
    intro gs e he
    rcases List.mem_cons.mp he with rfl | he'
    · refine mem_lookupG_foldl l _ _ _ ?_
      rw [lookupG_addToGroup_self]
      exact List.mem_append_right _ (List.mem_singleton_self _)
    · exact ih _ e he'

/-- A nonempty bucket is an element of the group list. -/
theorem lookupG_mem (gs : List (ℕ × List String)) (k : ℕ) (h : lookupG gs k ≠ []) :
    (k, lookupG gs k) ∈ gs := by
  induction gs with
  | nil => exact absurd rfl h
  | cons g gs ih =>
    obtain ⟨gk, gv⟩ := g
    by_cases hk : gk = k
    · subst hk
      simp [lookupG]
    · simp only [lookupG, if_neg hk] at h ⊢
      exact List.mem_cons_of_mem _ (ih h)

/-- Lemma: `Vec::dedup` preserves membership. -/
theorem mem_rustDedup (x : String) : ∀ l, x ∈ l → x ∈ rustDedup l := by
  intro l
  induction l with
  | nil => simp
  | cons a l ih =>
    cases l with
    | nil => simp [rustDedup]
    | cons b l' =>
      intro hx
      by_cases hab : a = b
      · simp only [rustDedup, if_pos hab]
        rcases List.mem_cons.mp hx with rfl | h
        · exact ih (by simp [hab])
        · exact ih h
      · simp only [rustDedup, if_neg hab]
        rcases List.mem_cons.mp hx with rfl | h
        · exact List.mem_cons_self _ _
        · exact List.mem_cons_of_mem _ (ih h)

/-- Every group of the final report is a finished bucket of `groupEntries`. -/
theorem computeReport_forall (l : List Entry) :
    ∀ g ∈ computeReport l, ∃ k v, (k, v) ∈ groupEntries l ∧ k ≤ 65535
      ∧ g = finishGroup (k, v) := by
  intro g hg
  rw [computeReport, List.mem_reverse, List.mem_insertionSort] at hg
  obtain ⟨p, hp, rfl⟩ := List.mem_map.mp hg
  exact ⟨p.1, p.2, hp,
    groupEntries_keys_le l _ (List.mem_map_of_mem Prod.fst hp), rfl⟩

/-- The names of every group in the report are sorted (weakly) ascending. -/
theorem computeReport_names_sorted (l : List Entry) :
    ∀ g ∈ computeReport l, g.2.Pairwise nameLe := by
  intro g hg
  obtain ⟨k, v, _, _, rfl⟩ := computeReport_forall l g hg
  exact List.sorted_insertionSort nameLe (rustDedup v)

/-- The groups of the report are strictly ordered by descending
multiplier. -/
theorem computeReport_desc (l : List Entry) :
    (computeReport l).Pairwise fun g₁ g₂ => g₂.1 < g₁.1 := by
  have hgl : ∀ g ∈ (groupEntries l).map finishGroup,
      sortKey g.1 ≤ 65535 ∧ ((sortKey g.1 : ℚ)) / 100 = g.1 := by
    intro g hg
    obtain ⟨p, hp, rfl⟩ := List.mem_map.mp hg
    have hb := groupEntries_keys_le l _ (List.mem_map_of_mem Prod.fst hp)
    have hs : sortKey (finishGroup p).1 = p.1 := sortKey_div_natCast p.1 hb
    rw [hs]
    exact ⟨hb, rfl⟩
  have hsorted : (List.insertionSort groupLe ((groupEntries l).map finishGroup)).Pairwise
      groupLe := List.sorted_insertionSort groupLe _
  have hkeysmap : ((groupEntries l).map finishGroup).map (fun g => sortKey g.1)
      = (groupEntries l).map Prod.fst := by
    rw [List.map_map]
    refine List.map_congr_left fun p hp => ?_
    exact sortKey_div_natCast p.1 (groupEntries_keys_le l _ (List.mem_map_of_mem Prod.fst hp))
  have hnodup : ((List.insertionSort groupLe ((groupEntries l).map finishGroup)).map
      fun g => sortKey g.1).Nodup := by
    rw [((List.perm_insertionSort groupLe _).map _).nodup_iff, hkeysmap]
    exact groupEntries_keys_nodup l
  have hne : (List.insertionSort groupLe ((groupEntries l).map finishGroup)).Pairwise
      fun g₁ g₂ => sortKey g₁.1 ≠ sortKey g₂.1 := List.pairwise_map.mp hnodup
  have hstrict : (List.insertionSort groupLe ((groupEntries l).map finishGroup)).Pairwise
      fun g₁ g₂ => sortKey g₁.1 < sortKey g₂.1 :=
    (hsorted.and hne).imp fun h => lt_of_le_of_ne h.1 h.2
  have hrev : (computeReport l).Pairwise fun g₁ g₂ => sortKey g₂.1 < sortKey g₁.1 :=
    List.pairwise_reverse.mpr hstrict
  refine hrev.imp_of_mem fun {g₁ g₂} h₁ h₂ hlt => ?_
  rw [computeReport, List.mem_reverse, List.mem_insertionSort] at h₁ h₂
  obtain ⟨hb₁, he₁⟩ := hgl g₁ h₁
  obtain ⟨hb₂, he₂⟩ := hgl g₂ h₂
  rw [← he₁, ← he₂]
  rw [div_lt_div_iff_of_pos_right (by norm_num : (0 : ℚ) < 100)]
  exact_mod_cast hlt

/-- Every table entry contributes its display name to the report group whose
multiplier is the entry's rounded key scaled back by `100`. -/
theorem computeReport_mem_group (l : List Entry) (e : Entry) (he : e ∈ l) :
    ∃ g ∈ computeReport l, g.1 = (toKey e.mult : ℚ) / 100 ∧ e.name ∈ g.2 := by
  have h1 : e.name ∈ lookupG (groupEntries l) (toKey e.mult) := name_mem_groupEntries l e he
  have hne : lookupG (groupEntries l) (toKey e.mult) ≠ [] := by
    intro hc
    rw [hc] at h1
    exact absurd h1 (List.not_mem_nil _)
  have h2 : (toKey e.mult, lookupG (groupEntries l) (toKey e.mult)) ∈ groupEntries l :=
    lookupG_mem _ _ hne
  refine ⟨finishGroup (toKey e.mult, lookupG (groupEntries l) (toKey e.mult)), ?_, rfl, ?_⟩
  · rw [computeReport, List.mem_reverse, List.mem_insertionSort]
    exact List.mem_map_of_mem finishGroup h2
  · show e.name ∈ List.insertionSort nameLe (rustDedup _)
    rw [List.mem_insertionSort]
    exact mem_rustDedup _ _ h1

/-- C3 (code bug).  The source runs `v.dedup()` *before* `v.sort_unstable()`;
`Vec::dedup` removes only consecutive duplicates, and the bucket order comes
from `HashMap` iteration, so two entries with the same display name that are
not adjacent in iteration order both survive.  At this failing input (ids
`1` and `3` share the display name `"A"`, separated by id `2`) the report
group at multiplier `1` contains `"A"` twice instead of once. -/
theorem c3_dedup_bug_eval :
    (TypeMatchup.get ⟨[⟨1, "A", 1⟩, ⟨2, "B", 1⟩, ⟨3, "A", 1⟩], []⟩).1
      = [(1, ["A", "A", "B"])] := by
  with_unfolding_all decide

/-- C4 (amended).  In every report produced by `get` (under the cache
invariant) the groups are strictly ordered by descending multiplier, and the
display names inside each group are sorted ascending — but only weakly:
duplicate names can survive `dedup` (see the counterexample), so "strictly
ascending" fails. -/
theorem c4_report_ordering (s : TypeMatchup) (h : CacheInv s) :
    (s.get.1.Pairwise fun g₁ g₂ => g₂.1 < g₁.1)
      ∧ ∀ g ∈ s.get.1, g.2.Pairwise nameLe := by
  rw [get_fst_report s h]
  exact ⟨computeReport_desc _, computeReport_names_sorted _⟩

/-- C4 counterexample: with two table entries named `"X"` (ids `1` and `3`)
separated by `"Y"` (id `2`), the single report group holds
`["X", "X", "Y"]`, which is not *strictly* ascending. -/
theorem c4_counterexample :
    (TypeMatchup.get ⟨[⟨1, "X", 1⟩, ⟨2, "Y", 1⟩, ⟨3, "X", 1⟩], []⟩).1
        = [(1, ["X", "X", "Y"])]
      ∧ ¬ (["X", "X", "Y"] : List String).Pairwise nameLt := by
  constructor
  · with_unfolding_all decide
  · with_unfolding_all decide

/-- C4 witness: a two-entry table with distinct multipliers, on which the
amended ordering claims hold. -/
theorem c4_witness :
    CacheInv ⟨[⟨1, "P", 2⟩, ⟨2, "Q", 1⟩], []⟩
      ∧ ((TypeMatchup.mk [⟨1, "P", 2⟩, ⟨2, "Q", 1⟩] []).get.1.Pairwise
          fun g₁ g₂ => g₂.1 < g₁.1)
      ∧ ∀ g ∈ (TypeMatchup.mk [⟨1, "P", 2⟩, ⟨2, "Q", 1⟩] []).get.1,
          g.2.Pairwise nameLe :=
  ⟨Or.inl rfl, (c4_report_ordering ⟨[⟨1, "P", 2⟩, ⟨2, "Q", 1⟩], []⟩ (Or.inl rfl)).1,
    (c4_report_ordering ⟨[⟨1, "P", 2⟩, ⟨2, "Q", 1⟩], []⟩ (Or.inl rfl)).2⟩

/-- C7 (amended).  The grouping key is `(mult * 100).round()` *saturated to
`u16`*: as long as the rounded values stay within `[0, 65535]`, two
multipliers share a group exactly when they round to the same 2-decimal
value, each entry's name appears in the group reported at exactly the
rounded value divided by 100, and distinct groups have distinct reported
multipliers.  Beyond the `u16` range the saturation collapses different
rounded values into one key (see the counterexample). -/
theorem c7_rounding_amended (s : TypeMatchup) (hInv : CacheInv s) (e₁ e₂ : Entry)
    (h₁ : e₁ ∈ s.inner) (h₂ : e₂ ∈ s.inner)
    (hb₁ : 0 ≤ rustRound (e₁.mult * 100)) (hb₁' : rustRound (e₁.mult * 100) ≤ 65535)
    (hb₂ : 0 ≤ rustRound (e₂.mult * 100)) (hb₂' : rustRound (e₂.mult * 100) ≤ 65535) :
    (toKey e₁.mult = toKey e₂.mult ↔ rustRound (e₁.mult * 100) = rustRound (e₂.mult * 100))
      ∧ (∃ g ∈ s.get.1, g.1 = (rustRound (e₁.mult * 100) : ℚ) / 100 ∧ e₁.name ∈ g.2)
      ∧ s.get.1.Pairwise fun g₁ g₂ => g₁.1 ≠ g₂.1 := by
  refine ⟨⟨fun h => toU16_inj _ _ hb₁ hb₁' hb₂ hb₂' h, fun h => ?_⟩, ?_, ?_⟩
  · unfold toKey
    rw [h]
  · rw [get_fst_report s hInv]
    obtain ⟨g, hg, hg1, hgn⟩ := computeReport_mem_group s.inner e₁ h₁
    refine ⟨g, hg, ?_, hgn⟩
    rw [hg1]
    have h' : (toKey e₁.mult : ℤ) = rustRound (e₁.mult * 100) :=
      toU16_of_nonneg_le _ hb₁ hb₁'
    congr 1
    exact_mod_cast h'
  · rw [get_fst_report s hInv]
    exact (computeReport_desc s.inner).imp fun h => ne_of_gt h

set_option maxRecDepth 4096 in
/-- C7 counterexample: starting from a fresh two-type table, doubling type
`1` ten times and type `2` eleven times (a legal sequence of relation
applications) yields multipliers `1024` and `2048`.  Their rounded values
`102400` and `204800` differ, yet both saturate to the `u16` key `65535`,
so `get` puts both names into one group, reported at `655.35` — not the
rounded value divided by 100. -/
theorem c7_counterexample :
    rustRound ((1024 : ℚ) * 100) ≠ rustRound ((2048 : ℚ) * 100)
      ∧ (TypeMatchup.apply_relations ⟨[⟨1, "A", 1⟩, ⟨2, "B", 1⟩], []⟩
            ⟨[], List.replicate 10 1 ++ List.replicate 11 2, []⟩).get.1
          = [((13107 : ℚ) / 20, ["A", "B"])]
      ∧ (13107 : ℚ) / 20 ≠ (rustRound ((1024 : ℚ) * 100) : ℚ) / 100 := by
  have hr1 : rustRound ((1024 : ℚ) * 100) = 102400 := by with_unfolding_all decide
  have hr2 : rustRound ((2048 : ℚ) * 100) = 204800 := by with_unfolding_all decide
  have hinner : (TypeMatchup.apply_relations ⟨[⟨1, "A", 1⟩, ⟨2, "B", 1⟩], []⟩
      ⟨[], List.replicate 10 1 ++ List.replicate 11 2, []⟩).inner
        = [⟨1, "A", 1024⟩, ⟨2, "B", 2048⟩] := by with_unfolding_all decide
  have hcache : (TypeMatchup.apply_relations ⟨[⟨1, "A", 1⟩, ⟨2, "B", 1⟩], []⟩
      ⟨[], List.replicate 10 1 ++ List.replicate 11 2, []⟩).cache = [] := by
    with_unfolding_all decide
  have hge : groupEntries [⟨1, "A", 1024⟩, ⟨2, "B", 2048⟩] = [(65535, ["A", "B"])] := by
    with_unfolding_all decide
  have hnames : List.insertionSort nameLe (rustDedup ["A", "B"]) = ["A", "B"] := by
    with_unfolding_all decide
  have hfg : finishGroup (65535, ["A", "B"]) = ((13107 : ℚ) / 20, ["A", "B"]) := by
    unfold finishGroup
    refine Prod.ext ?_ hnames
    show ((65535 : ℕ) : ℚ) / 100 = (13107 : ℚ) / 20
    norm_num
  refine ⟨by rw [hr1, hr2]; decide, ?_, by rw [hr1]; norm_num⟩
  rw [get_fst_of_cache_empty _ hcache, hinner]
  rw [computeReport, hge, List.map_cons, List.map_nil, hfg]
  rfl

/-- C7 witness: a table with multipliers `2` and `1`, whose rounded values
`200` and `100` are in `u16` range; the amended claims hold there. -/
theorem c7_witness :
    ((⟨1, "A", 2⟩ : Entry) ∈ ([⟨1, "A", 2⟩, ⟨2, "B", 1⟩] : List Entry)
        ∧ 0 ≤ rustRound ((2 : ℚ) * 100) ∧ rustRound ((2 : ℚ) * 100) ≤ 65535
        ∧ 0 ≤ rustRound ((1 : ℚ) * 100) ∧ rustRound ((1 : ℚ) * 100) ≤ 65535)
      ∧ ((toKey (2 : ℚ) = toKey (1 : ℚ)
            ↔ rustRound ((2 : ℚ) * 100) = rustRound ((1 : ℚ) * 100))
        ∧ (∃ g ∈ (TypeMatchup.mk [⟨1, "A", 2⟩, ⟨2, "B", 1⟩] []).get.1,
            g.1 = (rustRound ((2 : ℚ) * 100) : ℚ) / 100 ∧ "A" ∈ g.2)
        ∧ (TypeMatchup.mk [⟨1, "A", 2⟩, ⟨2, "B", 1⟩] []).get.1.Pairwise
            fun g₁ g₂ => g₁.1 ≠ g₂.1) := by
  refine ⟨⟨by with_unfolding_all decide, by with_unfolding_all decide,
    by with_unfolding_all decide, by with_unfolding_all decide,
    by with_unfolding_all decide⟩, ?_⟩
  exact c7_rounding_amended ⟨[⟨1, "A", 2⟩, ⟨2, "B", 1⟩], []⟩ (Or.inl rfl)
    ⟨1, "A", 2⟩ ⟨2, "B", 1⟩ (by with_unfolding_all decide)
    (by with_unfolding_all decide) (by with_unfolding_all decide)
    (by with_unfolding_all decide) (by with_unfolding_all decide)
    (by with_unfolding_all decide)

/-- Every `modify_type` leaves the state in the cache invariant (the cache
is cleared). -/
theorem cacheInv_modify_type (s : TypeMatchup) (id : ℤ) (f : ℚ → ℚ) :
    CacheInv (s.modify_type id f) :=
  Or.inl rfl

/-- A fold of cache-invariant steps preserves the cache invariant. -/
theorem foldl_cacheInv (step : TypeMatchup → ℤ → TypeMatchup)
    (hstep : ∀ (s : TypeMatchup) (i : ℤ), CacheInv (step s i)) :
    ∀ (L : List ℤ) (s : TypeMatchup), CacheInv s → CacheInv (L.foldl step s)
  | [], _, h => h
  | i :: L, s, _ => foldl_cacheInv step hstep L (step s i) (hstep s i)

/-- `apply_relations` preserves the cache invariant. -/
theorem cacheInv_apply_relations (s : TypeMatchup) (rel : TypeRelations)
    (h : CacheInv s) : CacheInv (s.apply_relations rel) :=
  foldl_cacheInv TypeMatchup.half_damage_from (fun _ _ => Or.inl rfl) _ _
    (foldl_cacheInv TypeMatchup.double_damage_from (fun _ _ => Or.inl rfl) _ _
      (foldl_cacheInv TypeMatchup.no_damage_from (fun _ _ => Or.inl rfl) _ _ h))

/-- `get` preserves the cache invariant. -/
theorem cacheInv_get (s : TypeMatchup) (h : CacheInv s) : CacheInv s.get.2 :=
  Or.inr ((get_snd_cache s h).trans (congrArg computeReport (get_snd_inner s)).symm)

/-- The keys after `insertEntry`: unchanged if the key is present (the entry
is replaced in place), otherwise the new key is appended. -/
theorem insertEntry_ids (l : List Entry) (id : ℤ) (n : String) :
    (insertEntry l id n).map Entry.id
      = if id ∈ l.map Entry.id then l.map Entry.id else l.map Entry.id ++ [id] := by
  induction l with
  | nil => simp [insertEntry]
  | cons a l ih =>
    by_cases ha : a.id = id
    · simp [insertEntry, ha]
    · simp only [insertEntry, if_neg ha, List.map_cons, ih, List.mem_cons]
      by_cases hmem : id ∈ l.map Entry.id <;>
        simp [hmem, Ne.symm ha]

/-- Lemma: `insertEntry` preserves "all multipliers are `1`" (the inserted entry has
multiplier `1`). -/
theorem insertEntry_mult (l : List Entry) (id : ℤ) (n : String)
    (h : ∀ e ∈ l, e.mult = 1) : ∀ e ∈ insertEntry l id n, e.mult = 1 := by
  induction l with
  | nil =>
    intro e he
    simp only [insertEntry, List.mem_singleton] at he
    rw [he]
  | cons a l ih =>
    by_cases ha : a.id = id
    · simp only [insertEntry, if_pos ha]
      intro e he
      rcases List.mem_cons.mp he with rfl | he'
      · rfl
      · exact h e (List.mem_cons_of_mem _ he')
    · simp only [insertEntry, if_neg ha]
      intro e he
      rcases List.mem_cons.mp he with rfl | he'
      · exact h e (List.mem_cons_self _ _)
      · exact ih (fun e' he'' => h e' (List.mem_cons_of_mem _ he'')) e he'

/-- Characterization of a successful `newGo` run: the resulting keys are the
accumulator's keys plus the ids of the below-cutoff catalog entries, all
multipliers stay `1`, and the cache is untouched. -/
theorem newGo_ok (catalog : List PokeType) :
    ∀ acc s : TypeMatchup, TypeMatchup.newGo acc catalog = Except.ok s →
      (∀ i : ℤ, i ∈ s.inner.map Entry.id ↔
          i ∈ acc.inner.map Entry.id ∨ ∃ t ∈ catalog, t.id = i ∧ i < 19)
        ∧ ((∀ e ∈ acc.inner, e.mult = 1) → ∀ e ∈ s.inner, e.mult = 1)
        ∧ s.cache = acc.cache := by
  induction catalog with
  | nil =>
    intro acc s h
    obtain rfl : acc = s := by simpa [TypeMatchup.newGo] using h
    simp
  | cons t rest ih =>
    intro acc s h
    by_cases ht : t.id < 19
    · cases hes : english_search t.names with
      | error e =>
        simp only [TypeMatchup.newGo, if_pos ht, hes] at h
        exact absurd h (by simp)
      | ok n =>
        simp only [TypeMatchup.newGo, if_pos ht, hes] at h
        obtain ⟨hids, hmult, hcache⟩ := ih _ s h
        refine ⟨fun i => ?_, fun hacc => hmult (insertEntry_mult _ _ _ hacc), hcache⟩
        rw [hids i]
        constructor
        · rintro (hin | ⟨t', ht', hti, hlt⟩)
          · rw [insertEntry_ids] at hin
            by_cases hmem : t.id ∈ acc.inner.map Entry.id
            · rw [if_pos hmem] at hin
              exact Or.inl hin
            · rw [if_neg hmem] at hin
              rcases List.mem_append.mp hin with h' | h'
              · exact Or.inl h'
              · obtain rfl := List.mem_singleton.mp h'
                exact Or.inr ⟨t, List.mem_cons_self _ _, rfl, ht⟩
          · exact Or.inr ⟨t', List.mem_cons_of_mem _ ht', hti, hlt⟩
        · rintro (hin | ⟨t', ht', hti, hlt⟩)
          · left
            rw [insertEntry_ids]
            by_cases hmem : t.id ∈ acc.inner.map Entry.id
            · rwa [if_pos hmem]
            · rw [if_neg hmem]
              exact List.mem_append_left _ hin
          · rcases List.mem_cons.mp ht' with rfl | ht''
            · left
              rw [insertEntry_ids]
              by_cases hmem : t'.id ∈ acc.inner.map Entry.id
              · rw [if_pos hmem]
                rwa [← hti]
              · rw [if_neg hmem]
                exact List.mem_append_right _ (by rw [← hti]; exact List.mem_singleton_self _)
            · exact Or.inr ⟨t', ht'', hti, hlt⟩
    · simp only [TypeMatchup.newGo, if_neg ht] at h
      obtain ⟨hids, hmult, hcache⟩ := ih _ s h
      refine ⟨fun i => ?_, hmult, hcache⟩
      rw [hids i]
      constructor
      · rintro (hin | ⟨t', ht', hti, hlt⟩)
        · exact Or.inl hin
        · exact Or.inr ⟨t', List.mem_cons_of_mem _ ht', hti, hlt⟩
      · rintro (hin | ⟨t', ht', hti, hlt⟩)
        · exact Or.inl hin
        · rcases List.mem_cons.mp ht' with rfl | ht''
          · exact absurd (hti ▸ hlt) ht
          · exact Or.inr ⟨t', ht'', hti, hlt⟩

/-- Every state produced by `new` satisfies the cache invariant. -/
theorem cacheInv_new (catalog : List PokeType) (s : TypeMatchup)
    (h : TypeMatchup.new catalog = Except.ok s) : CacheInv s :=
  Or.inl (newGo_ok catalog ⟨[], []⟩ s h).2.2

/-- C5.  Whenever `new` succeeds on a catalog, the resulting table contains
exactly the ids of the catalog entries below the base-type cutoff `19`, every
entry is at multiplier exactly `1`, and the report cache starts empty. -/
theorem c5_new_initialization (catalog : List PokeType) (s : TypeMatchup)
    (h : TypeMatchup.new catalog = Except.ok s) :
    (∀ i : ℤ, i ∈ s.inner.map Entry.id ↔ ∃ t ∈ catalog, t.id = i ∧ i < 19)
      ∧ (∀ e ∈ s.inner, e.mult = 1) ∧ s.cache = [] := by
  obtain ⟨hids, hmult, hcache⟩ := newGo_ok catalog ⟨[], []⟩ s h
  refine ⟨fun i => ?_, hmult (by simp), hcache⟩
  rw [hids i]
  simp

/-- C5 witness: a two-type catalog with ids `1` (kept, named `"Fire"`) and
`20` (beyond the cutoff, dropped). -/
theorem c5_witness :
    TypeMatchup.new [⟨1, [⟨"Fire", ⟨"en"⟩⟩]⟩, ⟨20, [⟨"Unknown", ⟨"en"⟩⟩]⟩]
        = Except.ok ⟨[⟨1, "Fire", 1⟩], []⟩
      ∧ ((∀ i : ℤ, i ∈ ([⟨1, "Fire", 1⟩] : List Entry).map Entry.id ↔
            ∃ t ∈ ([⟨1, [⟨"Fire", ⟨"en"⟩⟩]⟩, ⟨20, [⟨"Unknown", ⟨"en"⟩⟩]⟩] : List PokeType),
              t.id = i ∧ i < 19)
        ∧ (∀ e ∈ ([⟨1, "Fire", 1⟩] : List Entry), e.mult = 1)
        ∧ ([] : List (ℚ × List String)) = []) := by
  have hnew : TypeMatchup.new [⟨1, [⟨"Fire", ⟨"en"⟩⟩]⟩, ⟨20, [⟨"Unknown", ⟨"en"⟩⟩]⟩]
      = Except.ok ⟨[⟨1, "Fire", 1⟩], []⟩ := by with_unfolding_all rfl
  exact ⟨hnew, c5_new_initialization _ _ hnew⟩
